import Mathlib

/-!
Shallow embedding of the minimal-diff / line-suggestion extraction logic of the
PR review tool (source: the direct PR review script, functions
findSmallestDiff, findFirstDifferentLineIndex, extractMinimalChanges and the
suggestion fallback chain inside formatComment).

Line sequences are `List String`.  JavaScript array reads `a[i]` are modelled
with `a[i]?` (`Option`), `a.slice(x, y)` with `(a.drop x).take (y - x)`
(both clamp exactly like JS `slice` for natural-number arguments), and the
`while`/`for` loops are modelled by fuel-indexed structural recursion, with
fuel chosen large enough (proved sufficient in the lemmas below).  "Checked"
variants (`...Ck`) additionally return `none` as soon as any element access
would be out of bounds; they are the direct reading of the source loops and
are related to the plain functions by the safety claim.
-/

/-- JS `array.join(newline)` on a list of lines. -/
def jsJoinNewline : List String → String
  | [] => ""
  | [x] => x
  | x :: y :: ys => x ++ "\n" ++ jsJoinNewline (y :: ys)

/-- Helper for `jsSplitNewline`: accumulates the current line (reversed). -/
def splitNlAux : List Char → List Char → List String
  | [], acc => [String.mk acc.reverse]
  | c :: cs, acc =>
    if c = '\n' then String.mk acc.reverse :: splitNlAux cs []
    else splitNlAux cs (c :: acc)

/-- JS `str.split(newline)`: always at least one (possibly empty) field. -/
def jsSplitNewline (str : String) : List String :=
  splitNlAux str.toList []

/-- Test whether `needle` occurs at the very start of `hay`. -/
def matchesAt : List Char → List Char → Bool
  | _, [] => true
  | [], _ :: _ => false
  | h :: hs, n :: ns => h = n && matchesAt hs ns

/-- Test whether `needle` occurs contiguously somewhere in `hay`. -/
def containsSeq : List Char → List Char → Bool
  | [], needle => matchesAt [] needle
  | h :: hs, needle => matchesAt (h :: hs) needle || containsSeq hs needle

/-- JS `hay.includes(needle)` on strings. -/
def strIncludes (hay needle : String) : Bool :=
  containsSeq hay.toList needle.toList

/-- Source `findFirstDifferentLineIndex(originalLines, suggestedLines)`:
scan positions below the shorter length and return the first mismatch;
if all compared positions match but the lengths differ, return the shorter
length; return the NONE sentinel (source: `-1`) only for identical inputs. -/
def findFirstDifferentLineIndex : List String → List String → Option Nat
  | [], [] => none
  | [], _ :: _ => some 0
  | _ :: _, [] => some 0
  | a :: as, b :: bs =>
    if a ≠ b then some 0
    else (findFirstDifferentLineIndex as bs).map (· + 1)

/-- Source `findSmallestDiff`'s `while` loop extending `endDiffIndex` over the
contiguous run of differing positions, fuel-indexed. -/
def extendDiffEndAux (o s : List String) : Nat → Nat → Nat
  | fuel + 1, endDiffIndex =>
    if endDiffIndex < min o.length s.length - 1 then
      if endDiffIndex + 1 < o.length ∧ endDiffIndex + 1 < s.length ∧
          o[endDiffIndex + 1]? ≠ s[endDiffIndex + 1]? then
        extendDiffEndAux o s fuel (endDiffIndex + 1)
      else endDiffIndex
    else endDiffIndex
  | 0, endDiffIndex => endDiffIndex

/-- The final `endDiffIndex` computed by `findSmallestDiff`'s loop.  The fuel
`min o.length s.length + 1` is strictly larger than the number of iterations
the loop can make, so it never runs out (proved below). -/
def extendDiffEnd (o s : List String) (firstDiffIndex : Nat) : Nat :=
  extendDiffEndAux o s (min o.length s.length + 1) firstDiffIndex

/-- Source `findSmallestDiff(originalLines, suggestedLines)`. -/
def findSmallestDiff (o s : List String) : List String :=
  match findFirstDifferentLineIndex o s with
  | none => []
  | some firstDiffIndex =>
    let endDiffIndex := extendDiffEnd o s firstDiffIndex
    if endDiffIndex - firstDiffIndex + 1 ≤ 3 then
      (s.drop firstDiffIndex).take (endDiffIndex + 1 - firstDiffIndex)
    else
      match s[firstDiffIndex]? with
      | some x => [x]
      | none => []

/-- Source `extractMinimalChanges`'s common-prefix `while` loop, fuel-indexed. -/
def commonPrefixLenAux (o s : List String) : Nat → Nat → Nat
  | fuel + 1, p =>
    if p < min o.length s.length ∧ o[p]? = s[p]? then
      commonPrefixLenAux o s fuel (p + 1)
    else p
  | 0, p => p

/-- The `prefixLength` computed by `extractMinimalChanges`. -/
def commonPrefixLen (o s : List String) : Nat :=
  commonPrefixLenAux o s (min o.length s.length + 1) 0

/-- Source `extractMinimalChanges`'s common-suffix `while` loop (bounded so
that prefix + suffix never exceeds the shorter length), fuel-indexed. -/
def commonSuffixLenAux (o s : List String) (p : Nat) : Nat → Nat → Nat
  | fuel + 1, suf =>
    if suf < min o.length s.length - p ∧
        o[o.length - 1 - suf]? = s[s.length - 1 - suf]? then
      commonSuffixLenAux o s p (fuel) (suf + 1)
    else suf
  | 0, suf => suf

/-- The `suffixLength` computed by `extractMinimalChanges` (given the already
computed `prefixLength`). -/
def commonSuffixLen (o s : List String) (p : Nat) : Nat :=
  commonSuffixLenAux o s p (min o.length s.length + 1) 0

/-- Body of source `extractMinimalChanges` after the two loops: the identical
case returns the whole suggested sequence joined; otherwise the changed core
is widened by one context line each side (clamped) and joined.  (The source
also computes `finalOriginal`, which is dead code and not modelled.) -/
def extractBody (o s : List String) (prefixLength suffixLength : Nat) : String :=
  let originalChanged := (o.drop prefixLength).take (o.length - suffixLength - prefixLength)
  let suggestedChanged := (s.drop prefixLength).take (s.length - suffixLength - prefixLength)
  if originalChanged = [] ∧ suggestedChanged = [] then
    jsJoinNewline s
  else
    let startContext := prefixLength - 1
    let endContextSuggested := min s.length (s.length - suffixLength + 1)
    jsJoinNewline ((s.drop startContext).take (endContextSuggested - startContext))

/-- Source `extractMinimalChanges(originalLines, suggestedLines)`. -/
def extractMinimalChanges (o s : List String) : String :=
  extractBody o s (commonPrefixLen o s) (commonSuffixLen o s (commonPrefixLen o s))

/-- The last-resort step of the fallback chain in `formatComment`:
`extractMinimalChanges(...).split(newline).slice(0, 3)`. -/
def limitedSuggestion (o s : List String) : List String :=
  (jsSplitNewline (extractMinimalChanges o s)).take 3

/-- The common fallback chain in `formatComment` once no keyword line was
found: use `findSmallestDiff` if it yields 1..3 lines, else the single line
at `findFirstDifferentLineIndex` when that index is inside the suggested
sequence, else the capped `extractMinimalChanges` output. -/
def fallbackChain (o s : List String) : List String :=
  let diffLines := findSmallestDiff o s
  if 0 < diffLines.length ∧ diffLines.length ≤ 3 then diffLines
  else
    match findFirstDifferentLineIndex o s with
    | some firstDiffIndex =>
      if h : firstDiffIndex < s.length then [s.get ⟨firstDiffIndex, h⟩]
      else limitedSuggestion o s
    | none => limitedSuggestion o s

/-- The suggestion lines emitted by `formatComment`'s single-suggestion branch
for one key: if some original line contains the key (first such index) and
that index is inside the suggested sequence, emit exactly that suggested
line; otherwise run the fallback chain. -/
def singleSuggestionLines (o s : List String) (key : String) : List String :=
  match o.findIdx? (fun line => strIncludes line key) with
  | some targetLineIndex =>
    if h : targetLineIndex < s.length then [s.get ⟨targetLineIndex, h⟩]
    else fallbackChain o s
  | none => fallbackChain o s

/-- The suggestion lines emitted by `formatComment`'s multi-suggestion branch
for one key: if some original line contains the key (first such index `t`),
emit `suggested.slice(t - contextBefore, t + contextAfter + 1)` with up to one
line of context each side; otherwise run the fallback chain. -/
def multiSuggestionLines (o s : List String) (key : String) : List String :=
  match o.findIdx? (fun line => strIncludes line key) with
  | some targetLineIndex =>
    let contextLinesBefore := min 1 targetLineIndex
    let contextLinesAfter := min 1 (o.length - targetLineIndex - 1)
    (s.drop (targetLineIndex - contextLinesBefore)).take
      (targetLineIndex + contextLinesAfter + 1 - (targetLineIndex - contextLinesBefore))
  | none => fallbackChain o s

/-- Checked index-based reading of the source `findFirstDifferentLineIndex`
loop: every element access goes through `[·]?` and an out-of-bounds access
aborts with `none` (outer `Option`); fuel exhaustion also aborts. -/
def findFirstDifferentLineIndexCkAux (o s : List String) : Nat → Nat → Option (Option Nat)
  | fuel + 1, i =>
    if i < min o.length s.length then
      match o[i]?, s[i]? with
      | some a, some b =>
        if a ≠ b then some (some i)
        else findFirstDifferentLineIndexCkAux o s fuel (i + 1)
      | _, _ => none
    else
      some (if o.length ≠ s.length then some (min o.length s.length) else none)
  | 0, _ => none

/-- Checked `findFirstDifferentLineIndex`, started at index 0 as in source. -/
def findFirstDifferentLineIndexCk (o s : List String) : Option (Option Nat) :=
  findFirstDifferentLineIndexCkAux o s (min o.length s.length + 1) 0

/-- Checked reading of `findSmallestDiff`'s extension loop. -/
def extendDiffEndCkAux (o s : List String) : Nat → Nat → Option Nat
  | fuel + 1, endDiffIndex =>
    if endDiffIndex < min o.length s.length - 1 then
      if endDiffIndex + 1 < o.length ∧ endDiffIndex + 1 < s.length then
        match o[endDiffIndex + 1]?, s[endDiffIndex + 1]? with
        | some a, some b =>
          if a ≠ b then extendDiffEndCkAux o s fuel (endDiffIndex + 1)
          else some endDiffIndex
        | _, _ => none
      else some endDiffIndex
    else some endDiffIndex
  | 0, _ => none

/-- Checked `extendDiffEnd`. -/
def extendDiffEndCk (o s : List String) (firstDiffIndex : Nat) : Option Nat :=
  extendDiffEndCkAux o s (min o.length s.length + 1) firstDiffIndex

/-- Checked `findSmallestDiff`: the degraded branch reads
`suggestedLines[firstDiffIndex]` unguarded in the source, so here it fails
with `none` if that access is out of bounds. -/
def findSmallestDiffCk (o s : List String) : Option (List String) :=
  (findFirstDifferentLineIndexCk o s).bind fun fd =>
    match fd with
    | none => some []
    | some firstDiffIndex =>
      (extendDiffEndCk o s firstDiffIndex).bind fun endDiffIndex =>
        if endDiffIndex - firstDiffIndex + 1 ≤ 3 then
          some ((s.drop firstDiffIndex).take (endDiffIndex + 1 - firstDiffIndex))
        else
          (s[firstDiffIndex]?).map fun x => [x]

/-- Checked reading of the common-prefix loop. -/
def commonPrefixLenCkAux (o s : List String) : Nat → Nat → Option Nat
  | fuel + 1, p =>
    if p < min o.length s.length then
      match o[p]?, s[p]? with
      | some a, some b =>
        if a = b then commonPrefixLenCkAux o s fuel (p + 1) else some p
      | _, _ => none
    else some p
  | 0, _ => none

/-- Checked `commonPrefixLen`. -/
def commonPrefixLenCk (o s : List String) : Option Nat :=
  commonPrefixLenCkAux o s (min o.length s.length + 1) 0

/-- Checked reading of the common-suffix loop. -/
def commonSuffixLenCkAux (o s : List String) (p : Nat) : Nat → Nat → Option Nat
  | fuel + 1, suf =>
    if suf < min o.length s.length - p then
      match o[o.length - 1 - suf]?, s[s.length - 1 - suf]? with
      | some a, some b =>
        if a = b then commonSuffixLenCkAux o s p fuel (suf + 1) else some suf
      | _, _ => none
    else some suf
  | 0, _ => none

/-- Checked `commonSuffixLen`. -/
def commonSuffixLenCk (o s : List String) (p : Nat) : Option Nat :=
  commonSuffixLenCkAux o s p (min o.length s.length + 1) 0

/-- Checked `extractMinimalChanges` (the body after the loops performs no
further element access, only slices and joins). -/
def extractMinimalChangesCk (o s : List String) : Option String :=
  (commonPrefixLenCk o s).bind fun prefixLength =>
    (commonSuffixLenCk o s prefixLength).bind fun suffixLength =>
      some (extractBody o s prefixLength suffixLength)

/-- Modelled from the spec: the length of the longest common prefix of two
line sequences, used to state what `extractMinimalChanges`'s prefix loop is
claimed to compute. -/
def specCommonPrefixLen : List String → List String → Nat
  | a :: as, b :: bs => if a = b then specCommonPrefixLen as bs + 1 else 0
  | _, _ => 0

/-- Modelled from the spec: the longest common suffix length, bounded so that
prefix + suffix never exceeds the shorter length; used to state what
`extractMinimalChanges`'s suffix loop is claimed to compute. -/
def specCommonSuffixLen (o s : List String) : Nat :=
  min (specCommonPrefixLen o.reverse s.reverse)
    (min o.length s.length - specCommonPrefixLen o s)

example : findFirstDifferentLineIndex ["a", "b", "c"] ["a", "b", "c"] = none := by decide
example : findFirstDifferentLineIndexCk ["a", "b"] ["a", "c"] = some (some 1) := by decide
example : findSmallestDiffCk ["a", "x1", "x2", "x3", "x4", "b"]
    ["a", "y1", "y2", "y3", "y4", "b"] = some ["y1"] := by decide
example : extractMinimalChangesCk ["a", "b", "old", "c", "d"]
    ["a", "b", "new", "c", "d"] = some "b\nnew\nc" := by decide
example : specCommonPrefixLen ["a", "b", "x"] ["a", "b", "y"] = 2 := by decide
example : findFirstDifferentLineIndex [] ["new line"] = some 0 := by decide
example : findSmallestDiff [] ["new line"] = ["new line"] := by decide
example : findSmallestDiff ["a", "x1", "x2", "x3", "x4", "b"]
    ["a", "y1", "y2", "y3", "y4", "b"] = ["y1"] := by decide
example : extractMinimalChanges ["a", "b", "old", "c", "d"]
    ["a", "b", "new", "c", "d"] = "b\nnew\nc" := by decide
example : singleSuggestionLines ["a", "b", "c"] ["a", "b", "c"] "zzz"
    = ["a", "b", "c"] := by decide
example : multiSuggestionLines ["p", "key x", "q"] ["p", "Y", "q"] "key"
    = ["p", "Y", "q"] := by decide

theorem ffdli_eq_none_iff (o s : List String) :
    findFirstDifferentLineIndex o s = none ↔ o = s := by
  induction o generalizing s with
  | nil => cases s <;> simp [findFirstDifferentLineIndex]
  | cons a as ih =>
    cases s with
    | nil => simp [findFirstDifferentLineIndex]
    | cons b bs =>
      by_cases hab : a = b
      · subst hab
        simp [findFirstDifferentLineIndex, Option.map_eq_none', ih]
      · simp [findFirstDifferentLineIndex, hab]

theorem ffdli_some_le {o s : List String} {i : Nat}
    (h : findFirstDifferentLineIndex o s = some i) :
    i ≤ min o.length s.length := by
  induction o generalizing s i with
  | nil =>
    cases s with
    | nil => simp [findFirstDifferentLineIndex] at h
    | cons b bs =>
      simp [findFirstDifferentLineIndex] at h
      omega
  | cons a as ih =>
    cases s with
    | nil =>
      simp [findFirstDifferentLineIndex] at h
      omega
    | cons b bs =>
      by_cases hab : a = b
      · subst hab
        simp only [findFirstDifferentLineIndex, ne_eq, not_true_eq_false, if_neg,
          ite_false, Option.map_eq_some'] at h
        obtain ⟨j, hj, rfl⟩ := h
        have := ih hj
        simp only [List.length_cons]
        omega
      · simp [findFirstDifferentLineIndex, hab] at h
        omega

theorem ffdli_agree_below {o s : List String} {i : Nat}
    (h : findFirstDifferentLineIndex o s = some i) :
    ∀ j, j < i → o[j]? = s[j]? := by
  induction o generalizing s i with
  | nil =>
    cases s with
    | nil => simp [findFirstDifferentLineIndex] at h
    | cons b bs =>
      simp [findFirstDifferentLineIndex] at h
      intro j hj
      omega
  | cons a as ih =>
    cases s with
    | nil =>
      simp [findFirstDifferentLineIndex] at h
      intro j hj
      omega
    | cons b bs =>
      by_cases hab : a = b
      · subst hab
        simp only [findFirstDifferentLineIndex, ne_eq, not_true_eq_false, if_neg,
          ite_false, Option.map_eq_some'] at h
        obtain ⟨j0, hj0, rfl⟩ := h
        intro j hj
        cases j with
        | zero => simp
        | succ k =>
          simp only [List.getElem?_cons_succ]
          exact ih hj0 k (by omega)
      · simp [findFirstDifferentLineIndex, hab] at h
        intro j hj
        omega

theorem ffdli_some_diff {o s : List String} {i : Nat}
    (h : findFirstDifferentLineIndex o s = some i)
    (hi : i < min o.length s.length) :
    o[i]? ≠ s[i]? := by
  induction o generalizing s i with
  | nil => simp at hi
  | cons a as ih =>
    cases s with
    | nil => simp at hi
    | cons b bs =>
      by_cases hab : a = b
      · subst hab
        simp only [findFirstDifferentLineIndex, ne_eq, not_true_eq_false, if_neg,
          ite_false, Option.map_eq_some'] at h
        obtain ⟨j, hj, rfl⟩ := h
        simp only [List.getElem?_cons_succ]
        exact ih hj (by simp at hi; omega)
      · simp [findFirstDifferentLineIndex, hab] at h
        subst h
        simp [hab]

theorem ffdli_min_le {o s : List String} {i : Nat}
    (h : findFirstDifferentLineIndex o s = some i)
    (hi : min o.length s.length ≤ i) :
    o.length ≠ s.length ∧ i = min o.length s.length := by
  induction o generalizing s i with
  | nil =>
    cases s with
    | nil => simp [findFirstDifferentLineIndex] at h
    | cons b bs =>
      simp [findFirstDifferentLineIndex] at h
      simp
      omega
  | cons a as ih =>
    cases s with
    | nil =>
      simp [findFirstDifferentLineIndex] at h
      simp
      omega
    | cons b bs =>
      by_cases hab : a = b
      · subst hab
        simp only [findFirstDifferentLineIndex, ne_eq, not_true_eq_false, if_neg,
          ite_false, Option.map_eq_some'] at h
        obtain ⟨j, hj, rfl⟩ := h
        have hmin : min as.length bs.length ≤ j := by
          simp only [List.length_cons] at hi
          omega
        have := ih hj hmin
        simp only [List.length_cons]
        omega
      · simp [findFirstDifferentLineIndex, hab] at h
        simp only [List.length_cons] at hi
        omega

theorem ffdli_first {o s : List String} {i : Nat}
    (hi : i < min o.length s.length)
    (hagree : ∀ j, j < i → o[j]? = s[j]?)
    (hdiff : o[i]? ≠ s[i]?) :
    findFirstDifferentLineIndex o s = some i := by
  induction o generalizing s i with
  | nil => simp at hi
  | cons a as ih =>
    cases s with
    | nil => simp at hi
    | cons b bs =>
      cases i with
      | zero =>
        have hab : a ≠ b := by simpa using hdiff
        simp [findFirstDifferentLineIndex, hab]
      | succ j =>
        have hab : a = b := by
          have := hagree 0 (by omega)
          simpa using this
        subst hab
        have hrec : findFirstDifferentLineIndex as bs = some j := by
          refine ih (by simp at hi; omega) ?_ (by simpa using hdiff)
          intro k hk
          have := hagree (k + 1) (by omega)
          simpa using this
        simp [findFirstDifferentLineIndex, hrec]

theorem ffdli_len_diff {o s : List String}
    (hagree : ∀ j, j < min o.length s.length → o[j]? = s[j]?)
    (hlen : o.length ≠ s.length) :
    findFirstDifferentLineIndex o s = some (min o.length s.length) := by
  induction o generalizing s with
  | nil =>
    cases s with
    | nil => simp at hlen
    | cons b bs => simp [findFirstDifferentLineIndex]
  | cons a as ih =>
    cases s with
    | nil => simp [findFirstDifferentLineIndex]
    | cons b bs =>
      have hab : a = b := by
        have := hagree 0 (by simp)
        simpa using this
      subst hab
      have hrec := @ih bs (fun j hj => by
          have := hagree (j + 1) (by simp; omega)
          simpa using this)
        (by simpa using hlen)
      simp [findFirstDifferentLineIndex, hrec, Nat.succ_min_succ]

theorem extendDiffEndAux_succ (o s : List String) (n e : Nat) :
    extendDiffEndAux o s (n + 1) e =
      if e < min o.length s.length - 1 then
        if e + 1 < o.length ∧ e + 1 < s.length ∧ o[e + 1]? ≠ s[e + 1]? then
          extendDiffEndAux o s n (e + 1)
        else e
      else e := rfl

theorem extendDiffEndAux_le (o s : List String) :
    ∀ fuel e, e ≤ extendDiffEndAux o s fuel e := by
  intro fuel
  induction fuel with
  | zero => intro e; simp [extendDiffEndAux]
  | succ n ih =>
    intro e
    simp only [extendDiffEndAux]
    split
    · split
      · exact le_trans (by omega) (ih (e + 1))
      · exact le_refl e
    · exact le_refl e

theorem extendDiffEndAux_stable (o s : List String) (fuel e : Nat)
    (h : ¬ e < min o.length s.length - 1) :
    extendDiffEndAux o s fuel e = e := by
  cases fuel <;> simp [extendDiffEndAux, h]

theorem extendDiffEndAux_run (o s : List String) :
    ∀ fuel e, min o.length s.length - 1 - e < fuel →
      ∀ j, e < j → j ≤ extendDiffEndAux o s fuel e →
        j < min o.length s.length ∧ o[j]? ≠ s[j]? := by
  intro fuel
  induction fuel with
  | zero => intro e hf; omega
  | succ n ih =>
    intro e hf j hej hjle
    by_cases h1 : e < min o.length s.length - 1
    · by_cases h2 : e + 1 < o.length ∧ e + 1 < s.length ∧ o[e + 1]? ≠ s[e + 1]?
      · have heq : extendDiffEndAux o s (n + 1) e = extendDiffEndAux o s n (e + 1) := by
          rw [extendDiffEndAux_succ, if_pos h1, if_pos h2]
        rw [heq] at hjle
        rcases Nat.eq_or_lt_of_le (Nat.succ_le_of_lt hej) with hje | hje
        · refine ⟨by omega, ?_⟩
          rw [← hje]
          exact h2.2.2
        · exact ih (e + 1) (by omega) j hje hjle
      · have heq : extendDiffEndAux o s (n + 1) e = e := by
          rw [extendDiffEndAux_succ, if_pos h1, if_neg h2]
        rw [heq] at hjle
        omega
    · rw [extendDiffEndAux_stable o s _ e h1] at hjle
      omega

theorem extendDiffEndAux_max (o s : List String) :
    ∀ fuel e, min o.length s.length - 1 - e < fuel →
      extendDiffEndAux o s fuel e < min o.length s.length - 1 →
      o[extendDiffEndAux o s fuel e + 1]? = s[extendDiffEndAux o s fuel e + 1]? := by
  intro fuel
  induction fuel with
  | zero => intro e hf; omega
  | succ n ih =>
    intro e hf hlt
    by_cases h1 : e < min o.length s.length - 1
    · by_cases h2 : e + 1 < o.length ∧ e + 1 < s.length ∧ o[e + 1]? ≠ s[e + 1]?
      · have heq : extendDiffEndAux o s (n + 1) e = extendDiffEndAux o s n (e + 1) := by
          rw [extendDiffEndAux_succ, if_pos h1, if_pos h2]
        rw [heq] at hlt ⊢
        exact ih (e + 1) (by omega) hlt
      · have heq : extendDiffEndAux o s (n + 1) e = e := by
          rw [extendDiffEndAux_succ, if_pos h1, if_neg h2]
        rw [heq] at hlt ⊢
        have hb1 : e + 1 < o.length := by omega
        have hb2 : e + 1 < s.length := by omega
        by_contra hne
        exact h2 ⟨hb1, hb2, hne⟩
    · rw [extendDiffEndAux_stable o s _ e h1] at hlt
      omega

theorem extendDiffEndAux_bound (o s : List String) :
    ∀ fuel e, min o.length s.length - 1 - e < fuel →
      e ≤ min o.length s.length - 1 →
      extendDiffEndAux o s fuel e ≤ min o.length s.length - 1 := by
  intro fuel
  induction fuel with
  | zero => intro e hf; omega
  | succ n ih =>
    intro e hf he
    by_cases h1 : e < min o.length s.length - 1
    · by_cases h2 : e + 1 < o.length ∧ e + 1 < s.length ∧ o[e + 1]? ≠ s[e + 1]?
      · have heq : extendDiffEndAux o s (n + 1) e = extendDiffEndAux o s n (e + 1) := by
          rw [extendDiffEndAux_succ, if_pos h1, if_pos h2]
        rw [heq]
        exact ih (e + 1) (by omega) (by omega)
      · have heq : extendDiffEndAux o s (n + 1) e = e := by
          rw [extendDiffEndAux_succ, if_pos h1, if_neg h2]
        rw [heq]
        exact he
    · rw [extendDiffEndAux_stable o s _ e h1]
      exact he

theorem extendDiffEnd_le (o s : List String) (e : Nat) : e ≤ extendDiffEnd o s e :=
  extendDiffEndAux_le o s _ e

theorem extendDiffEnd_stable (o s : List String) (e : Nat)
    (h : ¬ e < min o.length s.length - 1) : extendDiffEnd o s e = e :=
  extendDiffEndAux_stable o s _ e h

theorem extendDiffEnd_run (o s : List String) (e : Nat) :
    ∀ j, e < j → j ≤ extendDiffEnd o s e →
      j < min o.length s.length ∧ o[j]? ≠ s[j]? :=
  extendDiffEndAux_run o s _ e (by omega)

theorem extendDiffEnd_max (o s : List String) (e : Nat)
    (h : extendDiffEnd o s e < min o.length s.length - 1) :
    o[extendDiffEnd o s e + 1]? = s[extendDiffEnd o s e + 1]? :=
  extendDiffEndAux_max o s _ e (by omega) h

theorem extendDiffEnd_bound (o s : List String) (e : Nat)
    (he : e ≤ min o.length s.length - 1) :
    extendDiffEnd o s e ≤ min o.length s.length - 1 :=
  extendDiffEndAux_bound o s _ e (by omega) he

theorem degraded_start_lt {o s : List String} {start : Nat}
    (h3 : 3 < extendDiffEnd o s start - start + 1) :
    start < min o.length s.length := by
  have hle := extendDiffEnd_le o s start
  have hlt : start < extendDiffEnd o s start := by omega
  have hrun := (extendDiffEnd_run o s start (extendDiffEnd o s start) hlt le_rfl).1
  omega

theorem take_one_drop (s : List String) (i : Nat) :
    (s.drop i).take 1 = (match s[i]? with | some x => [x] | none => ([] : List String)) := by
  by_cases h : i < s.length
  · rw [List.getElem?_eq_getElem h, List.drop_eq_getElem_cons h]
    rfl
  · have hnil : s.drop i = [] := List.drop_eq_nil_of_le (by omega)
    have hnone : s[i]? = none := List.getElem?_eq_none (by omega)
    simp [hnil, hnone]

theorem findFirstDifferentLineIndexCkAux_succ (o s : List String) (n i : Nat) :
    findFirstDifferentLineIndexCkAux o s (n + 1) i =
      if i < min o.length s.length then
        match o[i]?, s[i]? with
        | some a, some b =>
          if a ≠ b then some (some i)
          else findFirstDifferentLineIndexCkAux o s n (i + 1)
        | _, _ => none
      else
        some (if o.length ≠ s.length then some (min o.length s.length) else none) := rfl

theorem ffdliCkAux_eq (o s : List String) :
    ∀ fuel i, i ≤ min o.length s.length → min o.length s.length - i < fuel →
      findFirstDifferentLineIndexCkAux o s fuel i =
        some ((findFirstDifferentLineIndex (o.drop i) (s.drop i)).map (· + i)) := by
  intro fuel
  induction fuel with
  | zero => intro i hi hf; omega
  | succ n ih =>
    intro i hi hf
    by_cases hlt : i < min o.length s.length
    · have hio : i < o.length := by omega
      have his : i < s.length := by omega
      have hdo := List.drop_eq_getElem_cons hio
      have hds := List.drop_eq_getElem_cons his
      by_cases hab : o[i] = s[i]
      · have hstep : findFirstDifferentLineIndexCkAux o s (n + 1) i
            = findFirstDifferentLineIndexCkAux o s n (i + 1) := by
          rw [findFirstDifferentLineIndexCkAux_succ, if_pos hlt,
            List.getElem?_eq_getElem hio, List.getElem?_eq_getElem his]
          simp [hab]
        rw [hstep, ih (i + 1) (by omega) (by omega), hdo, hds]
        rw [findFirstDifferentLineIndex]
        rw [if_neg (by simp [hab])]
        cases hr : findFirstDifferentLineIndex (o.drop (i + 1)) (s.drop (i + 1)) with
        | none => simp
        | some v =>
          simp only [Option.map_some', Option.some.injEq]
          omega
      · have hstep : findFirstDifferentLineIndexCkAux o s (n + 1) i = some (some i) := by
          rw [findFirstDifferentLineIndexCkAux_succ, if_pos hlt,
            List.getElem?_eq_getElem hio, List.getElem?_eq_getElem his]
          simp [hab]
        rw [hstep, hdo, hds]
        rw [findFirstDifferentLineIndex]
        rw [if_pos (by simp [hab])]
        simp
    · have hieq : i = min o.length s.length := by omega
      by_cases hlen : o.length = s.length
      · have hdo : o.drop i = [] := List.drop_eq_nil_of_le (by omega)
        have hds : s.drop i = [] := List.drop_eq_nil_of_le (by omega)
        have hstep : findFirstDifferentLineIndexCkAux o s (n + 1) i = some none := by
          rw [findFirstDifferentLineIndexCkAux_succ, if_neg hlt]
          simp [hlen]
        rw [hstep, hdo, hds]
        simp [findFirstDifferentLineIndex]
      · have hstep : findFirstDifferentLineIndexCkAux o s (n + 1) i
            = some (some (min o.length s.length)) := by
          rw [findFirstDifferentLineIndexCkAux_succ, if_neg hlt]
          simp [hlen]
        rw [hstep]
        rcases Nat.lt_or_ge o.length s.length with hos | hos
        · have hdo : o.drop i = [] := List.drop_eq_nil_of_le (by omega)
          obtain ⟨c, cs, hcs⟩ : ∃ c cs, s.drop i = c :: cs := by
            cases hsd : s.drop i with
            | nil =>
              have := List.drop_eq_nil_iff.mp hsd
              omega
            | cons c cs => exact ⟨c, cs, rfl⟩
          rw [hdo, hcs]
          simp [findFirstDifferentLineIndex, hieq]
        · have hds : s.drop i = [] := List.drop_eq_nil_of_le (by omega)
          obtain ⟨c, cs, hcs⟩ : ∃ c cs, o.drop i = c :: cs := by
            cases hsd : o.drop i with
            | nil =>
              have := List.drop_eq_nil_iff.mp hsd
              omega
            | cons c cs => exact ⟨c, cs, rfl⟩
          rw [hds, hcs]
          simp [findFirstDifferentLineIndex, hieq]

theorem findFirstDifferentLineIndexCk_eq (o s : List String) :
    findFirstDifferentLineIndexCk o s = some (findFirstDifferentLineIndex o s) := by
  have h := ffdliCkAux_eq o s (min o.length s.length + 1) 0 (by omega) (by omega)
  rw [findFirstDifferentLineIndexCk, h]
  simp only [List.drop_zero]
  cases hr : findFirstDifferentLineIndex o s <;> simp

theorem extendDiffEndCkAux_succ (o s : List String) (n e : Nat) :
    extendDiffEndCkAux o s (n + 1) e =
      if e < min o.length s.length - 1 then
        if e + 1 < o.length ∧ e + 1 < s.length then
          match o[e + 1]?, s[e + 1]? with
          | some a, some b =>
            if a ≠ b then extendDiffEndCkAux o s n (e + 1)
            else some e
          | _, _ => none
        else some e
      else some e := rfl

theorem extendDiffEndCkAux_eq (o s : List String) :
    ∀ fuel e, min o.length s.length - 1 - e < fuel →
      extendDiffEndCkAux o s fuel e = some (extendDiffEndAux o s fuel e) := by
  intro fuel
  induction fuel with
  | zero => intro e hf; omega
  | succ n ih =>
    intro e hf
    by_cases h1 : e < min o.length s.length - 1
    · have hbo : e + 1 < o.length := by omega
      have hbs : e + 1 < s.length := by omega
      by_cases hab : o[e + 1] = s[e + 1]
      · have hplain : extendDiffEndAux o s (n + 1) e = e := by
          rw [extendDiffEndAux_succ, if_pos h1,
            if_neg (fun hcon => hcon.2.2 (by
              rw [List.getElem?_eq_getElem hbo, List.getElem?_eq_getElem hbs, hab]))]
        have hck : extendDiffEndCkAux o s (n + 1) e = some e := by
          rw [extendDiffEndCkAux_succ, if_pos h1, if_pos ⟨hbo, hbs⟩,
            List.getElem?_eq_getElem hbo, List.getElem?_eq_getElem hbs]
          simp [hab]
        rw [hck, hplain]
      · have hplain : extendDiffEndAux o s (n + 1) e = extendDiffEndAux o s n (e + 1) := by
          rw [extendDiffEndAux_succ, if_pos h1,
            if_pos ⟨hbo, hbs, by
              rw [List.getElem?_eq_getElem hbo, List.getElem?_eq_getElem hbs]
              simp [hab]⟩]
        have hck : extendDiffEndCkAux o s (n + 1) e = extendDiffEndCkAux o s n (e + 1) := by
          rw [extendDiffEndCkAux_succ, if_pos h1, if_pos ⟨hbo, hbs⟩,
            List.getElem?_eq_getElem hbo, List.getElem?_eq_getElem hbs]
          simp [hab]
        rw [hck, hplain]
        exact ih (e + 1) (by omega)
    · rw [extendDiffEndCkAux_succ, if_neg h1, extendDiffEndAux_stable o s _ e h1]

theorem extendDiffEndCk_eq (o s : List String) (e : Nat) :
    extendDiffEndCk o s e = some (extendDiffEnd o s e) :=
  extendDiffEndCkAux_eq o s _ e (by omega)

theorem findSmallestDiffCk_eq (o s : List String) :
    findSmallestDiffCk o s = some (findSmallestDiff o s) := by
  rw [findSmallestDiffCk, findFirstDifferentLineIndexCk_eq]
  cases hfd : findFirstDifferentLineIndex o s with
  | none => simp [findSmallestDiff, hfd]
  | some start =>
    simp only [Option.some_bind]
    rw [extendDiffEndCk_eq]
    simp only [Option.some_bind]
    by_cases hle : extendDiffEnd o s start - start + 1 ≤ 3
    · simp [findSmallestDiff, hfd, hle]
    · have hlt : start < s.length := by
        have h1 := @degraded_start_lt o s start (by omega)
        omega
      rw [if_neg hle, List.getElem?_eq_getElem hlt]
      simp [findSmallestDiff, hfd, hle, List.getElem?_eq_getElem hlt]

theorem specCP_le (o s : List String) :
    specCommonPrefixLen o s ≤ min o.length s.length := by
  induction o generalizing s with
  | nil => cases s <;> simp [specCommonPrefixLen]
  | cons a as ih =>
    cases s with
    | nil => simp [specCommonPrefixLen]
    | cons b bs =>
      by_cases hab : a = b
      · have := ih bs
        simp only [specCommonPrefixLen, if_pos hab, List.length_cons]
        omega
      · simp [specCommonPrefixLen, hab]

theorem specCP_agree (o s : List String) :
    ∀ j, j < specCommonPrefixLen o s → o[j]? = s[j]? := by
  induction o generalizing s with
  | nil => cases s <;> simp [specCommonPrefixLen]
  | cons a as ih =>
    cases s with
    | nil => simp [specCommonPrefixLen]
    | cons b bs =>
      by_cases hab : a = b
      · intro j hj
        cases j with
        | zero => simp [hab]
        | succ k =>
          simp only [List.getElem?_cons_succ]
          refine ih bs k ?_
          simp only [specCommonPrefixLen, if_pos hab] at hj
          omega
      · simp [specCommonPrefixLen, hab]

theorem specCP_diff (o s : List String)
    (h : specCommonPrefixLen o s < min o.length s.length) :
    o[specCommonPrefixLen o s]? ≠ s[specCommonPrefixLen o s]? := by
  induction o generalizing s with
  | nil => simp at h
  | cons a as ih =>
    cases s with
    | nil => simp at h
    | cons b bs =>
      by_cases hab : a = b
      · simp only [specCommonPrefixLen, if_pos hab, List.getElem?_cons_succ]
        refine ih bs ?_
        simp only [specCommonPrefixLen, if_pos hab, List.length_cons] at h
        omega
      · simp [specCommonPrefixLen, hab]

theorem commonPrefixLenAux_succ (o s : List String) (n p : Nat) :
    commonPrefixLenAux o s (n + 1) p =
      if p < min o.length s.length ∧ o[p]? = s[p]? then
        commonPrefixLenAux o s n (p + 1)
      else p := rfl

theorem commonPrefixLenAux_eq (o s : List String) :
    ∀ fuel p, p ≤ specCommonPrefixLen o s → min o.length s.length - p < fuel →
      commonPrefixLenAux o s fuel p = specCommonPrefixLen o s := by
  intro fuel
  induction fuel with
  | zero =>
    intro p hp hf
    have := specCP_le o s
    omega
  | succ n ih =>
    intro p hp hf
    by_cases hplt : p < specCommonPrefixLen o s
    · have hmin : p < min o.length s.length := by
        have := specCP_le o s
        omega
      rw [commonPrefixLenAux_succ, if_pos ⟨hmin, specCP_agree o s p hplt⟩]
      exact ih (p + 1) (by omega) (by omega)
    · have hpe : p = specCommonPrefixLen o s := by omega
      rw [commonPrefixLenAux_succ, if_neg ?_]
      · exact hpe
      · rintro ⟨hlt, heq⟩
        rw [hpe] at hlt heq
        exact specCP_diff o s hlt heq

theorem commonPrefixLen_eq (o s : List String) :
    commonPrefixLen o s = specCommonPrefixLen o s :=
  commonPrefixLenAux_eq o s _ 0 (by omega) (by omega)

theorem commonSuffixLenAux_succ (o s : List String) (p n suf : Nat) :
    commonSuffixLenAux o s p (n + 1) suf =
      if suf < min o.length s.length - p ∧
          o[o.length - 1 - suf]? = s[s.length - 1 - suf]? then
        commonSuffixLenAux o s p n (suf + 1)
      else suf := rfl

theorem commonSuffixLenAux_eq (o s : List String) (p : Nat) :
    ∀ fuel suf,
      suf ≤ min (specCommonPrefixLen o.reverse s.reverse) (min o.length s.length - p) →
      min o.length s.length - p - suf < fuel →
      commonSuffixLenAux o s p fuel suf =
        min (specCommonPrefixLen o.reverse s.reverse) (min o.length s.length - p) := by
  intro fuel
  induction fuel with
  | zero => intro suf hsuf hf; omega
  | succ n ih =>
    intro suf hsuf hf
    by_cases hlt : suf < min (specCommonPrefixLen o.reverse s.reverse)
        (min o.length s.length - p)
    · have hso : suf < o.length := by omega
      have hss : suf < s.length := by omega
      have hrevagree := specCP_agree o.reverse s.reverse suf (by omega)
      rw [List.getElem?_reverse (by simpa using hso),
        List.getElem?_reverse (by simpa using hss)] at hrevagree
      rw [commonSuffixLenAux_succ, if_pos ⟨by omega, hrevagree⟩]
      exact ih (suf + 1) (by omega) (by omega)
    · have hse : suf = min (specCommonPrefixLen o.reverse s.reverse)
          (min o.length s.length - p) := by omega
      rw [commonSuffixLenAux_succ, if_neg ?_]
      · exact hse
      · rintro ⟨hcon, heq⟩
        have hrevlt : specCommonPrefixLen o.reverse s.reverse
            < min o.reverse.length s.reverse.length := by
          simp only [List.length_reverse]
          omega
        have hdiff := specCP_diff o.reverse s.reverse hrevlt
        have hLo : specCommonPrefixLen o.reverse s.reverse < o.length := by
          simp only [List.length_reverse] at hrevlt
          omega
        have hLs : specCommonPrefixLen o.reverse s.reverse < s.length := by
          simp only [List.length_reverse] at hrevlt
          omega
        rw [List.getElem?_reverse (by simpa using hLo),
          List.getElem?_reverse (by simpa using hLs)] at hdiff
        have hsufL : suf = specCommonPrefixLen o.reverse s.reverse := by omega
        rw [hsufL] at heq
        exact hdiff heq

theorem commonSuffixLen_eq (o s : List String) (p : Nat) :
    commonSuffixLen o s p =
      min (specCommonPrefixLen o.reverse s.reverse) (min o.length s.length - p) :=
  commonSuffixLenAux_eq o s p _ 0 (by omega) (by omega)

theorem commonPrefixLenCkAux_succ (o s : List String) (n p : Nat) :
    commonPrefixLenCkAux o s (n + 1) p =
      if p < min o.length s.length then
        match o[p]?, s[p]? with
        | some a, some b =>
          if a = b then commonPrefixLenCkAux o s n (p + 1) else some p
        | _, _ => none
      else some p := rfl

theorem commonPrefixLenCkAux_eq (o s : List String) :
    ∀ fuel p, min o.length s.length - p < fuel →
      commonPrefixLenCkAux o s fuel p = some (commonPrefixLenAux o s fuel p) := by
  intro fuel
  induction fuel with
  | zero => intro p hf; omega
  | succ n ih =>
    intro p hf
    by_cases hp : p < min o.length s.length
    · have hpo : p < o.length := by omega
      have hps : p < s.length := by omega
      by_cases hab : o[p] = s[p]
      · have hck : commonPrefixLenCkAux o s (n + 1) p = commonPrefixLenCkAux o s n (p + 1) := by
          rw [commonPrefixLenCkAux_succ, if_pos hp,
            List.getElem?_eq_getElem hpo, List.getElem?_eq_getElem hps]
          simp [hab]
        have hplain : commonPrefixLenAux o s (n + 1) p = commonPrefixLenAux o s n (p + 1) := by
          rw [commonPrefixLenAux_succ,
            if_pos ⟨hp, by rw [List.getElem?_eq_getElem hpo, List.getElem?_eq_getElem hps, hab]⟩]
        rw [hck, hplain]
        exact ih (p + 1) (by omega)
      · have hck : commonPrefixLenCkAux o s (n + 1) p = some p := by
          rw [commonPrefixLenCkAux_succ, if_pos hp,
            List.getElem?_eq_getElem hpo, List.getElem?_eq_getElem hps]
          simp [hab]
        have hplain : commonPrefixLenAux o s (n + 1) p = p := by
          rw [commonPrefixLenAux_succ, if_neg ?_]
          rintro ⟨hlt2, heq⟩
          rw [List.getElem?_eq_getElem hpo, List.getElem?_eq_getElem hps] at heq
          exact hab (by simpa using heq)
        rw [hck, hplain]
    · rw [commonPrefixLenCkAux_succ, if_neg hp, commonPrefixLenAux_succ,
        if_neg (fun hcon => hp hcon.1)]

theorem commonPrefixLenCk_eq (o s : List String) :
    commonPrefixLenCk o s = some (commonPrefixLen o s) :=
  commonPrefixLenCkAux_eq o s _ 0 (by omega)

theorem commonSuffixLenCkAux_succ (o s : List String) (p n suf : Nat) :
    commonSuffixLenCkAux o s p (n + 1) suf =
      if suf < min o.length s.length - p then
        match o[o.length - 1 - suf]?, s[s.length - 1 - suf]? with
        | some a, some b =>
          if a = b then commonSuffixLenCkAux o s p n (suf + 1) else some suf
        | _, _ => none
      else some suf := rfl

theorem commonSuffixLenCkAux_eq (o s : List String) (p : Nat) :
    ∀ fuel suf, min o.length s.length - p - suf < fuel →
      commonSuffixLenCkAux o s p fuel suf = some (commonSuffixLenAux o s p fuel suf) := by
  intro fuel
  induction fuel with
  | zero => intro suf hf; omega
  | succ n ih =>
    intro suf hf
    by_cases hs : suf < min o.length s.length - p
    · have hio : o.length - 1 - suf < o.length := by omega
      have his : s.length - 1 - suf < s.length := by omega
      by_cases hab : o[o.length - 1 - suf] = s[s.length - 1 - suf]
      · have hck : commonSuffixLenCkAux o s p (n + 1) suf
            = commonSuffixLenCkAux o s p n (suf + 1) := by
          rw [commonSuffixLenCkAux_succ, if_pos hs,
            List.getElem?_eq_getElem hio, List.getElem?_eq_getElem his]
          simp [hab]
        have hplain : commonSuffixLenAux o s p (n + 1) suf
            = commonSuffixLenAux o s p n (suf + 1) := by
          rw [commonSuffixLenAux_succ,
            if_pos ⟨hs, by rw [List.getElem?_eq_getElem hio, List.getElem?_eq_getElem his, hab]⟩]
        rw [hck, hplain]
        exact ih (suf + 1) (by omega)
      · have hck : commonSuffixLenCkAux o s p (n + 1) suf = some suf := by
          rw [commonSuffixLenCkAux_succ, if_pos hs,
            List.getElem?_eq_getElem hio, List.getElem?_eq_getElem his]
          simp [hab]
        have hplain : commonSuffixLenAux o s p (n + 1) suf = suf := by
          rw [commonSuffixLenAux_succ, if_neg ?_]
          rintro ⟨hlt2, heq⟩
          rw [List.getElem?_eq_getElem hio, List.getElem?_eq_getElem his] at heq
          exact hab (by simpa using heq)
        rw [hck, hplain]
    · rw [commonSuffixLenCkAux_succ, if_neg hs, commonSuffixLenAux_succ,
        if_neg (fun hcon => hs hcon.1)]

theorem commonSuffixLenCk_eq (o s : List String) (p : Nat) :
    commonSuffixLenCk o s p = some (commonSuffixLen o s p) :=
  commonSuffixLenCkAux_eq o s p _ 0 (by omega)

theorem extractMinimalChangesCk_eq (o s : List String) :
    extractMinimalChangesCk o s = some (extractMinimalChanges o s) := by
  rw [extractMinimalChangesCk, commonPrefixLenCk_eq]
  simp only [Option.some_bind]
  rw [commonSuffixLenCk_eq]
  simp only [Option.some_bind]
  rfl

theorem limitedSuggestion_len (o s : List String) :
    (limitedSuggestion o s).length ≤ 3 := by
  simp only [limitedSuggestion, List.length_take]
  omega

theorem fallbackChain_len (o s : List String) : (fallbackChain o s).length ≤ 3 := by
  simp only [fallbackChain]
  by_cases hdl : 0 < (findSmallestDiff o s).length ∧ (findSmallestDiff o s).length ≤ 3
  · rw [if_pos hdl]
    exact hdl.2
  · rw [if_neg hdl]
    cases hfd : findFirstDifferentLineIndex o s with
    | none => exact limitedSuggestion_len o s
    | some fd =>
      by_cases hlt : fd < s.length
      · simp [hlt]
      · simp only [dif_neg hlt]
        exact limitedSuggestion_len o s

theorem agree_prefix_exists {o s : List String}
    (hagree : ∀ j, j < s.length → o[j]? = s[j]?) (hle : s.length ≤ o.length) :
    ∃ t, o = s ++ t := by
  refine ⟨o.drop s.length, ?_⟩
  have htake : o.take s.length = s := by
    apply List.ext_getElem?
    intro j
    rw [List.getElem?_take]
    by_cases hj : j < s.length
    · rw [if_pos hj]
      exact hagree j hj
    · rw [if_neg hj]
      exact (List.getElem?_eq_none (by omega)).symm
  conv_lhs => rw [← List.take_append_drop s.length o]
  rw [htake]

/-- Claim C3: findFirstDifferentLineIndex returns the least index below the
shorter length at which the sequences disagree; if they agree on all such
positions but the lengths differ it returns the shorter length; and it
returns the NONE sentinel exactly when the sequences are identical. -/
theorem claim_c3 (o s : List String) :
    (∀ i, i < min o.length s.length → (∀ j, j < i → o[j]? = s[j]?) →
        o[i]? ≠ s[i]? → findFirstDifferentLineIndex o s = some i) ∧
    ((∀ j, j < min o.length s.length → o[j]? = s[j]?) → o.length ≠ s.length →
        findFirstDifferentLineIndex o s = some (min o.length s.length)) ∧
    (findFirstDifferentLineIndex o s = none ↔ o = s) :=
  ⟨fun _ hi hagree hdiff => ffdli_first hi hagree hdiff,
   fun hagree hlen => ffdli_len_diff hagree hlen,
   ffdli_eq_none_iff o s⟩

/-- Witness for C3: a mismatch at index 1, a pure length difference, and the
identity case, each obtained from claim_c3 at concrete inputs. -/
theorem claim_c3_witness :
    findFirstDifferentLineIndex ["a", "x"] ["a", "y"] = some 1 ∧
    findFirstDifferentLineIndex ["a"] ["a", "b"] = some 1 ∧
    findFirstDifferentLineIndex ["q"] ["q"] = none :=
  ⟨(claim_c3 ["a", "x"] ["a", "y"]).1 1 (by decide) (by decide) (by decide),
   (claim_c3 ["a"] ["a", "b"]).2.1 (by decide) (by decide),
   (claim_c3 ["q"] ["q"]).2.2.mpr rfl⟩

/-- Claim C2: from the first differing index, findSmallestDiff greedily
extends an end index over the contiguous run of differing positions (bounded
by both lengths: every covered in-range position differs, the run stops only
at a matching position or at the shorter length, and the end stays within the
shorter length whenever the start is); if the run length is at most 3 it
returns the slice suggested[start..end] inclusive, otherwise exactly the
single line [suggested[start]] (the start is then inside suggested, so the
take-1 slice is that one line). -/
theorem claim_c2 (o s : List String) (start : Nat)
    (h : findFirstDifferentLineIndex o s = some start) :
    start ≤ extendDiffEnd o s start ∧
    (∀ j, start ≤ j → j ≤ extendDiffEnd o s start → j < min o.length s.length →
        o[j]? ≠ s[j]?) ∧
    (extendDiffEnd o s start + 1 < min o.length s.length →
        o[extendDiffEnd o s start + 1]? = s[extendDiffEnd o s start + 1]?) ∧
    (start < min o.length s.length → extendDiffEnd o s start + 1 ≤ min o.length s.length) ∧
    (3 < extendDiffEnd o s start - start + 1 → start < s.length) ∧
    findSmallestDiff o s =
      (if extendDiffEnd o s start - start + 1 ≤ 3 then
        (s.drop start).take (extendDiffEnd o s start + 1 - start)
      else (s.drop start).take 1) := by
  refine ⟨extendDiffEnd_le o s start, ?_, ?_, ?_, ?_, ?_⟩
  · intro j hsj hje hjmin
    rcases Nat.eq_or_lt_of_le hsj with rfl | hlt
    · exact ffdli_some_diff h hjmin
    · exact (extendDiffEnd_run o s start j hlt hje).2
  · intro hlt
    exact extendDiffEnd_max o s start (by omega)
  · intro hstart
    by_cases hc : start < min o.length s.length - 1
    · have := extendDiffEnd_bound o s start (by omega)
      omega
    · rw [extendDiffEnd_stable o s start hc]
      omega
  · intro h3
    have h1 := @degraded_start_lt o s start h3
    omega
  · by_cases hle : extendDiffEnd o s start - start + 1 ≤ 3
    · simp [findSmallestDiff, h, hle]
    · rw [if_neg hle, take_one_drop]
      simp [findSmallestDiff, h, hle]

/-- Witness for C2 at the spec's scenario 3: a 4-line contiguous change
degrades to the single first differing suggested line. -/
theorem claim_c2_witness :
    findSmallestDiff ["a", "x1", "x2", "x3", "x4", "b"]
      ["a", "y1", "y2", "y3", "y4", "b"] = ["y1"] := by
  have h := (claim_c2 ["a", "x1", "x2", "x3", "x4", "b"]
    ["a", "y1", "y2", "y3", "y4", "b"] 1 (by decide)).2.2.2.2.2
  rw [h]
  decide

/-- Claim C6: when findSmallestDiff finds a bounded diff span (the first
differing index lies strictly below both lengths), the half-open span
[start, endDiffIndex + 1) it uses satisfies
start ≤ end ≤ min(len original, len suggested). -/
theorem claim_c6 (o s : List String) (start : Nat)
    (h : findFirstDifferentLineIndex o s = some start)
    (hb : start < min o.length s.length) :
    start ≤ extendDiffEnd o s start + 1 ∧
    extendDiffEnd o s start + 1 ≤ min o.length s.length := by
  have h1 := extendDiffEnd_le o s start
  refine ⟨by omega, ?_⟩
  by_cases hc : start < min o.length s.length - 1
  · have := extendDiffEnd_bound o s start (by omega)
    omega
  · rw [extendDiffEnd_stable o s start hc]
    omega

/-- Witness for C6 at a concrete bounded span. -/
theorem claim_c6_witness :
    findFirstDifferentLineIndex ["a", "x"] ["a", "y", "z"] = some 1 ∧
    1 < min 2 3 ∧
    1 ≤ extendDiffEnd ["a", "x"] ["a", "y", "z"] 1 + 1 ∧
    extendDiffEnd ["a", "x"] ["a", "y", "z"] 1 + 1 ≤ min 2 3 := by
  have h := claim_c6 ["a", "x"] ["a", "y", "z"] 1 (by decide) (by decide)
  exact ⟨by decide, by decide, h.1, h.2⟩

/-- Claim C8: all three operations are total and never access out of bounds:
the checked variants, in which every element access fails on out-of-bounds,
always succeed and agree with the plain embeddings. -/
theorem claim_c8 (o s : List String) :
    findFirstDifferentLineIndexCk o s = some (findFirstDifferentLineIndex o s) ∧
    findSmallestDiffCk o s = some (findSmallestDiff o s) ∧
    extractMinimalChangesCk o s = some (extractMinimalChanges o s) :=
  ⟨findFirstDifferentLineIndexCk_eq o s, findSmallestDiffCk_eq o s,
   extractMinimalChangesCk_eq o s⟩

/-- Claim C9: the output of findSmallestDiff is always a contiguous slice of
the suggested sequence, including in the degraded single-line branch. -/
theorem claim_c9 (o s : List String) :
    ∃ i n, findSmallestDiff o s = (s.drop i).take n := by
  cases hfd : findFirstDifferentLineIndex o s with
  | none => exact ⟨0, 0, by simp [findSmallestDiff, hfd]⟩
  | some start =>
    by_cases hle : extendDiffEnd o s start - start + 1 ≤ 3
    · exact ⟨start, extendDiffEnd o s start + 1 - start,
        by simp [findSmallestDiff, hfd, hle]⟩
    · refine ⟨start, 1, ?_⟩
      rw [take_one_drop]
      simp [findSmallestDiff, hfd, hle]

/-- Claim C10: findSmallestDiff returns the empty sequence exactly when the
suggested sequence is a (possibly equal) prefix of the original sequence; in
particular extra trailing original lines beyond a matching shorter suggested
sequence yield an empty result although the sequences differ. -/
theorem claim_c10 (o s : List String) :
    findSmallestDiff o s = [] ↔ ∃ t, o = s ++ t := by
  constructor
  · intro hempty
    cases hfd : findFirstDifferentLineIndex o s with
    | none =>
      have hos : o = s := (ffdli_eq_none_iff o s).mp hfd
      exact ⟨[], by simp [hos]⟩
    | some start =>
      by_cases hle : extendDiffEnd o s start - start + 1 ≤ 3
      · have hres : findSmallestDiff o s
            = (s.drop start).take (extendDiffEnd o s start + 1 - start) := by
          simp [findSmallestDiff, hfd, hle]
        rw [hres] at hempty
        have hne : extendDiffEnd o s start + 1 - start ≠ 0 := by
          have := extendDiffEnd_le o s start
          omega
        have hdropnil : s.drop start = [] := by
          cases hd : s.drop start with
          | nil => rfl
          | cons c cs =>
            rw [hd] at hempty
            cases hk : extendDiffEnd o s start + 1 - start with
            | zero => omega
            | succ m =>
              rw [hk] at hempty
              simp at hempty
        have hslen : s.length ≤ start := List.drop_eq_nil_iff.mp hdropnil
        have hle2 := ffdli_some_le hfd
        obtain ⟨hlen, hstarteq⟩ := ffdli_min_le hfd (by omega)
        have hagree := ffdli_agree_below hfd
        exact agree_prefix_exists (fun j hj => hagree j (by omega)) (by omega)
      · have hstart : start < s.length := by
          have := @degraded_start_lt o s start (by omega)
          omega
        have hres : findSmallestDiff o s = [s[start]] := by
          simp [findSmallestDiff, hfd, hle, List.getElem?_eq_getElem hstart]
        rw [hres] at hempty
        simp at hempty
  · rintro ⟨t, rfl⟩
    cases t with
    | nil =>
      simp [findSmallestDiff, (ffdli_eq_none_iff s s).mpr rfl, List.append_nil]
    | cons c cs =>
      have hlen : (s ++ c :: cs).length ≠ s.length := by simp
      have hminr : min (s ++ c :: cs).length s.length = s.length := by
        simp only [List.length_append, List.length_cons]
        omega
      have hagree : ∀ j, j < min (s ++ c :: cs).length s.length →
          (s ++ c :: cs)[j]? = s[j]? := by
        intro j hj
        rw [hminr] at hj
        rw [List.getElem?_append, if_pos hj]
      have hfd := ffdli_len_diff hagree hlen
      rw [hminr] at hfd
      have hstable : extendDiffEnd (s ++ c :: cs) s s.length = s.length :=
        extendDiffEnd_stable _ _ _ (by omega)
      simp [findSmallestDiff, hfd, hstable, List.drop_length]

/-- Claim C1: for every pair of input line sequences and every suggestion
key, the suggestion emitted by the full fallback chain in formatComment
(keyword match, then findSmallestDiff, then findFirstDifferentLineIndex,
then extractMinimalChanges) never exceeds 3 lines, in both the
multi-suggestion and the single-suggestion branch. -/
theorem claim_c1 (o s : List String) (key : String) :
    (singleSuggestionLines o s key).length ≤ 3 ∧
    (multiSuggestionLines o s key).length ≤ 3 := by
  constructor
  · rw [singleSuggestionLines]
    cases hidx : o.findIdx? (fun line => strIncludes line key) with
    | none => exact fallbackChain_len o s
    | some t =>
      by_cases hlt : t < s.length
      · simp [hlt]
      · simp only [dif_neg hlt]
        exact fallbackChain_len o s
  · rw [multiSuggestionLines]
    cases hidx : o.findIdx? (fun line => strIncludes line key) with
    | none => exact fallbackChain_len o s
    | some t =>
      simp only [List.length_take]
      omega

/-- Claim C5, code evaluation at the failing input: on identical input
sequences the diff span is indeed empty (findSmallestDiff returns the empty
sequence), but the fallback chain still emits a suggestion — the unchanged
sequence itself, produced by extractMinimalChanges's identical-case branch
and capped at 3 lines — instead of emitting nothing. -/
theorem claim_c5_code_divergence :
    findSmallestDiff ["a", "b", "c"] ["a", "b", "c"] = [] ∧
    singleSuggestionLines ["a", "b", "c"] ["a", "b", "c"] "zzz" = ["a", "b", "c"] ∧
    singleSuggestionLines ["a", "b", "c"] ["a", "b", "c"] "zzz" ≠ [] := by
  refine ⟨by decide, by decide, by decide⟩

/-- Counterexample to C7 as stated: when a keyword line is found, the
multi-suggestion branch emits up to one line of context around the target
(three lines here), not exactly the one suggested line at that index; and the
single-suggestion branch falls through to the later strategies when the
target index is outside the suggested sequence (emitting the capped
extractMinimalChanges output, a single empty line here). -/
theorem claim_c7_counterexample :
    multiSuggestionLines ["p", "key x", "q"] ["p", "Y", "q"] "key" = ["p", "Y", "q"] ∧
    multiSuggestionLines ["p", "key x", "q"] ["p", "Y", "q"] "key" ≠ ["Y"] ∧
    singleSuggestionLines ["key x"] [] "key" = [""] := by
  refine ⟨by decide, by decide, by decide⟩

/-- Claim C7 as amended: when some original line contains the matched keyword
and t is the first such index, the single-suggestion branch emits exactly the
one suggested line at index t when t is within the suggested sequence's
bounds and otherwise falls through to the fallback chain, while the
multi-suggestion branch emits the suggested slice around t with up to one
context line on each side (clamped to the sequence bounds). -/
theorem claim_c7_amended (o s : List String) (key : String) (t : Nat)
    (h : o.findIdx? (fun line => strIncludes line key) = some t) :
    multiSuggestionLines o s key =
      (s.drop (t - min 1 t)).take (min 1 t + min 1 (o.length - t - 1) + 1) ∧
    (t < s.length → singleSuggestionLines o s key = (s.drop t).take 1) ∧
    (s.length ≤ t → singleSuggestionLines o s key = fallbackChain o s) := by
  refine ⟨?_, ?_, ?_⟩
  · simp only [multiSuggestionLines, h]
    congr 1
    omega
  · intro hlt
    simp only [singleSuggestionLines, h, dif_pos hlt]
    rw [take_one_drop, List.getElem?_eq_getElem hlt]
    rfl
  · intro hge
    simp only [singleSuggestionLines, h, dif_neg (by omega : ¬ t < s.length)]

/-- Witness for the amended C7 at a concrete keyword match inside bounds. -/
theorem claim_c7_witness :
    multiSuggestionLines ["a", "kz", "b"] ["a", "W", "b"] "k" = ["a", "W", "b"] ∧
    singleSuggestionLines ["a", "kz", "b"] ["a", "W", "b"] "k" = ["W"] := by
  have h := claim_c7_amended ["a", "kz", "b"] ["a", "W", "b"] "k" 1 (by decide)
  constructor
  · rw [h.1]
    decide
  · rw [h.2.1 (by decide)]
    decide

/-- Claim C4: when the prefix/suffix-trimmed changed core is non-empty,
extractMinimalChanges computes the longest common prefix length and the
longest common suffix length (bounded so prefix + suffix never exceeds the
shorter length) and returns the slice of the suggested sequence between them
widened by at most one context line on each side, clamped to the sequence
bounds. -/
theorem claim_c4 (o s : List String)
    (h : ¬ ((o.drop (specCommonPrefixLen o s)).take
          (o.length - specCommonSuffixLen o s - specCommonPrefixLen o s) = [] ∧
        (s.drop (specCommonPrefixLen o s)).take
          (s.length - specCommonSuffixLen o s - specCommonPrefixLen o s) = [])) :
    specCommonPrefixLen o s + specCommonSuffixLen o s ≤ min o.length s.length ∧
    extractMinimalChanges o s =
      jsJoinNewline ((s.drop (specCommonPrefixLen o s - 1)).take
        (min s.length (s.length - specCommonSuffixLen o s + 1)
          - (specCommonPrefixLen o s - 1))) := by
  have hp : commonPrefixLen o s = specCommonPrefixLen o s := commonPrefixLen_eq o s
  have hsuf : commonSuffixLen o s (commonPrefixLen o s) = specCommonSuffixLen o s := by
    rw [hp, commonSuffixLen_eq, specCommonSuffixLen]
  constructor
  · have h1 := specCP_le o s
    simp only [specCommonSuffixLen]
    omega
  · rw [extractMinimalChanges, hsuf, hp]
    simp only [extractBody]
    rw [if_neg h]

/-- Witness for C4 at the spec's scenario 5: one context line each side of
the changed core. -/
theorem claim_c4_witness :
    extractMinimalChanges ["a", "b", "old", "c", "d"] ["a", "b", "new", "c", "d"]
      = "b\nnew\nc" := by
  have h := (claim_c4 ["a", "b", "old", "c", "d"] ["a", "b", "new", "c", "d"]
    (by decide)).2
  rw [h]
  decide
